import Mathlib

/-!
Verification of the Perceptron repository's numerical core: the dense
matrix engine (two variants: Laplace-expansion determinant and
LU-decomposition determinant/inverse) and the reverse-mode autodiff
scalar ("dual number").  JS numbers are modelled as rationals (exact
arithmetic); `Float64Array` buffers are modelled as lists of rationals
in row-major order.
-/

deriving instance DecidableEq for Except

namespace Perceptron

/-- Error kinds raised by the Matrix implementation (spec section 7). -/
inductive MErr where
  | invalidDimension
  | dataLengthMismatch
  | dimensionMismatch
  | notSquare
  | singular
  deriving DecidableEq, Repr

/-- Shallow embedding of a Matrix instance: dimensions `m x n` and the
row-major backing store (a `Float64Array` modelled as a list of rationals). -/
structure RawMatrix where
  m : ℕ
  n : ℕ
  data : List ℚ
  deriving DecidableEq, Repr

/-- `Number.isInteger(q) && q > 0` on a JS number modelled as a rational. -/
def isPosInt (q : ℚ) : Prop := q.den = 1 ∧ 0 < q

instance (q : ℚ) : Decidable (isPosInt q) := by
  unfold isPosInt; infer_instance

/-- Matrix constructor (part_001 lines 12-24): rejects non-positive or
non-integer dimensions, rejects a supplied data array of the wrong length,
and zero-fills the buffer when no data array is supplied. -/
def construct (mq nq : ℚ) (dataArray : Option (List ℚ)) : Except MErr RawMatrix :=
  if ¬ isPosInt mq ∨ ¬ isPosInt nq then
    .error .invalidDimension
  else
    let m := mq.num.toNat
    let n := nq.num.toNat
    match dataArray with
    | some d =>
        if d.length ≠ m * n then .error .dataLengthMismatch
        else .ok ⟨m, n, d⟩
    | none => .ok ⟨m, n, List.replicate (m * n) 0⟩

/-- Row-major element read `data[i*n + j]`. -/
def RawMatrix.entry (A : RawMatrix) (i j : ℕ) : ℚ := A.data.getD (i * A.n + j) 0

/-- Well-formedness: the backing store holds exactly `m*n` values (the
constructor establishes this and every operation preserves it; spec section 3). -/
def RawMatrix.WF (A : RawMatrix) : Prop := A.data.length = A.m * A.n

instance (A : RawMatrix) : Decidable A.WF := by
  unfold RawMatrix.WF; infer_instance

/-- `multiply` (part_001 lines 226-245): guard `n == other.rows`, then the
triple-loop product `new[i*p + j] = sum over k of data[i*n+k] * other.data[k*p+j]`. -/
def RawMatrix.multiply (A B : RawMatrix) : Except MErr RawMatrix :=
  if A.n ≠ B.m then .error .dimensionMismatch
  else
    let p := B.n
    .ok ⟨A.m, p, (List.range (A.m * p)).map fun idx =>
      (List.range A.n).foldl (fun sum k => sum + A.entry (idx / p) k * B.entry k (idx % p)) 0⟩

/-- `transpose` (part_001 lines 256-267): an `n x m` result with
`result[j*m + i] = data[i*n + j]`. -/
def RawMatrix.transpose (A : RawMatrix) : RawMatrix :=
  ⟨A.n, A.m, (List.range (A.n * A.m)).map fun idx => A.entry (idx % A.m) (idx / A.m)⟩

/-- `Matrix.identity(size)` (part_001 lines 307-317). -/
def RawMatrix.identity (size : ℕ) : RawMatrix :=
  ⟨size, size, (List.range (size * size)).map fun idx => if idx / size = idx % size then 1 else 0⟩

/-- `Float64Array` read at a canonical numeric index `q`: non-integral,
negative, or out-of-range indices read as `undefined` (`none`). -/
def taGet (d : List ℚ) (q : ℚ) : Option ℚ :=
  if q.den = 1 ∧ 0 ≤ q.num ∧ q.num.toNat < d.length then some (d.getD q.num.toNat 0) else none

/-- `Float64Array` write at a canonical numeric index: writes at a valid
integer index update in place; any other numeric index is silently ignored
and never allocates new storage. -/
def taSet (d : List ℚ) (q : ℚ) (v : ℚ) : List ℚ :=
  if q.den = 1 ∧ 0 ≤ q.num ∧ q.num.toNat < d.length then d.set q.num.toNat v else d

/-- Proxy two-level read `matrix[row][col]` (part_001 lines 271-293), numeric
property keys modelled as rationals; `none` is `undefined`. -/
def idxGet (A : RawMatrix) (row col : ℚ) : Option ℚ :=
  if 0 ≤ row ∧ row < (A.m : ℚ) then
    (if 0 ≤ col ∧ col < (A.n : ℚ) then taGet A.data (row * A.n + col) else none)
  else none

/-- Proxy two-level write `matrix[row][col] = v` (part_001 lines 275-291):
`none` when the write is rejected (the outer read yields `undefined`, making
the element assignment throw, or the inner `set` trap returns false). -/
def idxSet (A : RawMatrix) (row col : ℚ) (v : ℚ) : Option RawMatrix :=
  if 0 ≤ row ∧ row < (A.m : ℚ) then
    (if 0 ≤ col ∧ col < (A.n : ℚ) then some ⟨A.m, A.n, taSet A.data (row * A.n + col) v⟩
     else none)
  else none

/-- Outer proxy `set` trap (part_001 lines 295-301): a one-step whole-row
assignment `matrix[row] = v` with a numeric `row` in `[0, m)` throws. -/
def rowSetThrows (A : RawMatrix) (row : ℚ) : Bool :=
  decide (0 ≤ row ∧ row < (A.m : ℚ))

/-- C8: Matrix construction fails with `InvalidDimension` whenever rows or
cols is not a positive integer, fails with `DataLengthMismatch` whenever a
supplied data sequence's length differs from rows*cols, and when no data is
supplied produces a matrix whose every element is 0. -/
theorem construct_spec (mq nq : ℚ) :
    (∀ dOpt, (¬ isPosInt mq ∨ ¬ isPosInt nq) →
        construct mq nq dOpt = .error .invalidDimension) ∧
    (∀ d, isPosInt mq → isPosInt nq → d.length ≠ mq.num.toNat * nq.num.toNat →
        construct mq nq (some d) = .error .dataLengthMismatch) ∧
    (isPosInt mq → isPosInt nq →
        ∃ A, construct mq nq none = .ok A ∧ A.WF ∧
          A.data = List.replicate (A.m * A.n) 0 ∧ ∀ i j, A.entry i j = 0) := by
  refine ⟨?_, ?_, ?_⟩
  · intro dOpt h
    unfold construct
    rw [if_pos h]
  · intro d hm hn hd
    unfold construct
    rw [if_neg (by push_neg; exact ⟨hm, hn⟩)]
    simp [hd]
  · intro hm hn
    unfold construct
    rw [if_neg (by push_neg; exact ⟨hm, hn⟩)]
    refine ⟨_, rfl, by simp [RawMatrix.WF], rfl, ?_⟩
    intro i j
    simp [RawMatrix.entry, List.getElem?_replicate]
    split <;> rfl

/-- Closed witness for `construct_spec`, exercising each error branch and the
zero-fill branch at concrete inputs. -/
theorem construct_spec_witness :
    construct (mkRat 5 2) 2 none = .error .invalidDimension ∧
    construct 2 2 (some [1, 2, 3]) = .error .dataLengthMismatch ∧
    ∃ A, construct 2 3 none = .ok A ∧ A.WF ∧
      A.data = List.replicate (A.m * A.n) 0 ∧ ∀ i j, A.entry i j = 0 :=
  ⟨(construct_spec (mkRat 5 2) 2).1 none (by decide),
   (construct_spec 2 2).2.1 [1, 2, 3] (by decide) (by decide) (by decide),
   (construct_spec 2 3).2.2 (by decide) (by decide)⟩

lemma getD_map_range (N : ℕ) (f : ℕ → ℚ) (idx : ℕ) (h : idx < N) :
    (((List.range N).map f).getD idx 0) = f idx := by
  simp [List.getD_eq_getElem?_getD, List.getElem?_range, h]

lemma foldl_add_eq_sum (g : ℕ → ℚ) (l : List ℕ) (init : ℚ) :
    l.foldl (fun s k => s + g k) init = init + (l.map g).sum := by
  induction l generalizing init with
  | nil => simp
  | cons a t ih => simp [ih, add_assoc]

lemma flat_div {i j p : ℕ} (hj : j < p) : (i * p + j) / p = i := by
  have hp : 0 < p := lt_of_le_of_lt (Nat.zero_le j) hj
  rw [Nat.add_comm, Nat.add_mul_div_right _ _ hp, Nat.div_eq_of_lt hj, Nat.zero_add]

lemma flat_mod {i j p : ℕ} (hj : j < p) : (i * p + j) % p = j := by
  rw [Nat.add_comm, Nat.add_mul_mod_self_right, Nat.mod_eq_of_lt hj]

lemma flat_lt {i j m p : ℕ} (hi : i < m) (hj : j < p) : i * p + j < m * p :=
  calc i * p + j < i * p + p := Nat.add_lt_add_left hj _
  _ = (i + 1) * p := (Nat.succ_mul i p).symm
  _ ≤ m * p := Nat.mul_le_mul_right p (Nat.succ_le_of_lt hi)

/-- C6: `multiply` fails with `DimensionMismatch` exactly when `A.cols ≠ B.rows`;
otherwise it returns a new `A.rows x B.cols` matrix whose `(i,j)` entry is the
dot product of row `i` of `A` with column `j` of `B`; in particular the spec's
concrete scenario 3 holds. -/
theorem multiply_spec :
    (∀ A B : RawMatrix, (A.multiply B = .error .dimensionMismatch ↔ A.n ≠ B.m)) ∧
    (∀ A B C : RawMatrix, A.multiply B = .ok C →
        C.m = A.m ∧ C.n = B.n ∧ C.WF ∧
        ∀ i j, i < A.m → j < B.n →
          C.entry i j = ((List.range A.n).map fun k => A.entry i k * B.entry k j).sum) ∧
    ((RawMatrix.mk 2 3 [1, 2, 3, 4, 5, 6]).multiply (RawMatrix.mk 3 2 [7, 8, 9, 10, 11, 12]) =
      .ok (RawMatrix.mk 2 2 [58, 64, 139, 154])) := by
  refine ⟨?_, ?_, by with_unfolding_all rfl⟩
  · intro A B
    unfold RawMatrix.multiply
    by_cases h : A.n = B.m <;> simp [h]
  · intro A B C hC
    unfold RawMatrix.multiply at hC
    by_cases h : A.n = B.m
    · rw [if_neg (by simpa using h)] at hC
      obtain rfl : C = _ := (Except.ok.injEq _ _).mp hC.symm
      refine ⟨rfl, rfl, by simp [RawMatrix.WF], ?_⟩
      intro i j hi hj
      show (((List.range (A.m * B.n)).map _).getD (i * B.n + j) 0) = _
      rw [getD_map_range _ _ _ (flat_lt hi hj)]
      rw [foldl_add_eq_sum, zero_add, flat_div hj, flat_mod hj]
    · rw [if_pos (by simpa using h)] at hC
      exact absurd hC (by simp)

/-- Closed witness for `multiply_spec`: the success branch applied at a
concrete pair of matrices. -/
theorem multiply_spec_witness :
    (RawMatrix.mk 2 2 [1, 0, 0, 1]).multiply (RawMatrix.mk 2 2 [5, 6, 7, 8]) =
      .ok (RawMatrix.mk 2 2 [5, 6, 7, 8]) ∧
    (RawMatrix.mk 2 2 [5, 6, 7, 8]).entry 0 1 =
      ((List.range 2).map fun k =>
        (RawMatrix.mk 2 2 [1, 0, 0, 1]).entry 0 k *
          (RawMatrix.mk 2 2 [5, 6, 7, 8]).entry k 1).sum :=
  ⟨by with_unfolding_all rfl,
   (multiply_spec.2.1 (RawMatrix.mk 2 2 [1, 0, 0, 1]) (RawMatrix.mk 2 2 [5, 6, 7, 8])
      (RawMatrix.mk 2 2 [5, 6, 7, 8]) (by with_unfolding_all rfl)).2.2.2 0 1 (by decide) (by decide)⟩

/-- C9: `transpose` returns a matrix with swapped dimensions satisfying
`result[j][i] = A[i][j]`, and `A.transpose().transpose()` equals `A` exactly
(same dimensions, same data). -/
theorem transpose_spec (A : RawMatrix) (hA : A.WF) :
    A.transpose.m = A.n ∧ A.transpose.n = A.m ∧ A.transpose.WF ∧
    (∀ i j, i < A.m → j < A.n → A.transpose.entry j i = A.entry i j) ∧
    A.transpose.transpose = A := by
  refine ⟨rfl, rfl, by simp [RawMatrix.WF, RawMatrix.transpose], ?_, ?_⟩
  · intro i j hi hj
    show ((List.range (A.n * A.m)).map _).getD (j * A.m + i) 0 = _
    rw [getD_map_range _ _ _ (flat_lt hj hi), flat_mod hi, flat_div hi]
  · obtain ⟨m, n, data⟩ := A
    have hlen : data.length = m * n := hA
    have hdata : ((List.range (m * n)).map fun idx =>
        (RawMatrix.mk m n data).transpose.entry (idx % n) (idx / n)) = data := by
      apply List.ext_getElem
      · simp [hlen]
      · intro idx h1 h2
        have hidx : idx < m * n := by simpa using h1
        have hn : 0 < n := Nat.pos_of_ne_zero (by rintro rfl; simp at hidx)
        have hdiv : idx / n < m := (Nat.div_lt_iff_lt_mul hn).mpr (by omega)
        have hmod : idx % n < n := Nat.mod_lt _ hn
        simp only [List.getElem_map, List.getElem_range]
        show ((List.range (n * m)).map _).getD (idx % n * m + idx / n) 0 = _
        rw [getD_map_range _ _ _ (flat_lt hmod hdiv), flat_mod hdiv, flat_div hdiv]
        show data.getD (idx / n * n + idx % n) 0 = _
        rw [Nat.div_add_mod']
        exact List.getD_eq_getElem data 0 h2
    exact congrArg (RawMatrix.mk m n) hdata

/-- Closed witness for `transpose_spec` at a concrete 2x3 matrix. -/
theorem transpose_spec_witness :
    (RawMatrix.mk 2 3 [1, 2, 3, 4, 5, 6]).transpose.transpose =
      RawMatrix.mk 2 3 [1, 2, 3, 4, 5, 6] ∧
    (RawMatrix.mk 2 3 [1, 2, 3, 4, 5, 6]).transpose.entry 2 1 =
      (RawMatrix.mk 2 3 [1, 2, 3, 4, 5, 6]).entry 1 2 :=
  ⟨(transpose_spec (RawMatrix.mk 2 3 [1, 2, 3, 4, 5, 6]) (by decide)).2.2.2.2,
   (transpose_spec (RawMatrix.mk 2 3 [1, 2, 3, 4, 5, 6]) (by decide)).2.2.2.1 1 2
     (by decide) (by decide)⟩

lemma flat_inj {i j i2 j2 n : ℕ} (hj : j < n) (hj2 : j2 < n)
    (h : i2 * n + j2 = i * n + j) : i2 = i ∧ j2 = j := by
  constructor
  · have h2 := congrArg (· / n) h
    simpa [flat_div hj2, flat_div hj] using h2
  · have h2 := congrArg (· % n) h
    simpa [flat_mod hj2, flat_mod hj] using h2

lemma natIdx_num_toNat (a : ℕ) : ((a : ℚ).num.toNat) = a := by
  simp

/-- C7: two-level element access is bounds-checked to `row ∈ [0, rows)` and
`col ∈ [0, cols)`; an out-of-range write is rejected and no accepted write
changes the buffer size (no new storage); an accepted write updates exactly
the addressed element; a one-step whole-row assignment always throws. -/
theorem index_access_spec (A : RawMatrix) (hA : A.WF) (i j : ℕ) (v : ℚ) :
    (i < A.m ∧ j < A.n → idxGet A i j = some (A.entry i j)) ∧
    (¬(i < A.m ∧ j < A.n) → idxGet A i j = none) ∧
    (i < A.m ∧ j < A.n →
      idxSet A i j v = some (RawMatrix.mk A.m A.n (A.data.set (i * A.n + j) v)) ∧
      (A.data.set (i * A.n + j) v).length = A.data.length ∧
      (RawMatrix.mk A.m A.n (A.data.set (i * A.n + j) v)).entry i j = v ∧
      ∀ i2 j2, i2 < A.m → j2 < A.n → ¬(i2 = i ∧ j2 = j) →
        (RawMatrix.mk A.m A.n (A.data.set (i * A.n + j) v)).entry i2 j2 = A.entry i2 j2) ∧
    (¬(i < A.m ∧ j < A.n) → idxSet A i j v = none) ∧
    (i < A.m → rowSetThrows A i = true) := by
  have hcast : ∀ a b : ℕ, ((a : ℚ) * (A.n : ℚ) + (b : ℚ)) = ((a * A.n + b : ℕ) : ℚ) := by
    intro a b; push_cast; ring
  have hcond : ∀ a b : ℕ, a < A.m → b < A.n →
      (((a * A.n + b : ℕ) : ℚ).den = 1 ∧ 0 ≤ ((a * A.n + b : ℕ) : ℚ).num ∧
        ((a * A.n + b : ℕ) : ℚ).num.toNat < A.data.length) := by
    intro a b ha hb
    refine ⟨Rat.den_natCast _, by positivity, ?_⟩
    rw [natIdx_num_toNat, hA]
    exact flat_lt ha hb
  refine ⟨?_, ?_, ?_, ?_, ?_⟩
  · rintro ⟨hi, hj⟩
    unfold idxGet
    rw [if_pos ⟨Nat.cast_nonneg i, Nat.cast_lt.mpr hi⟩,
        if_pos ⟨Nat.cast_nonneg j, Nat.cast_lt.mpr hj⟩]
    unfold taGet
    rw [hcast i j, if_pos (hcond i j hi hj), natIdx_num_toNat]
    rfl
  · intro h
    unfold idxGet
    by_cases hi : i < A.m
    · have hj : ¬ j < A.n := fun hj => h ⟨hi, hj⟩
      rw [if_pos ⟨Nat.cast_nonneg i, Nat.cast_lt.mpr hi⟩,
          if_neg (by rintro ⟨-, hj2⟩; exact hj (Nat.cast_lt.mp hj2))]
    · rw [if_neg (by rintro ⟨-, hi2⟩; exact hi (Nat.cast_lt.mp hi2))]
  · rintro ⟨hi, hj⟩
    have hset : idxSet A i j v = some (RawMatrix.mk A.m A.n (A.data.set (i * A.n + j) v)) := by
      unfold idxSet
      rw [if_pos ⟨Nat.cast_nonneg i, Nat.cast_lt.mpr hi⟩,
          if_pos ⟨Nat.cast_nonneg j, Nat.cast_lt.mpr hj⟩]
      unfold taSet
      rw [hcast i j, if_pos (hcond i j hi hj), natIdx_num_toNat]
    refine ⟨hset, by simp, ?_, ?_⟩
    · show (A.data.set (i * A.n + j) v).getD (i * A.n + j) 0 = v
      rw [List.getD_eq_getElem _ 0 (by rw [List.length_set, hA]; exact flat_lt hi hj)]
      exact List.getElem_set_self _
    · intro i2 j2 hi2 hj2 hne
      show (A.data.set (i * A.n + j) v).getD (i2 * A.n + j2) 0 = A.data.getD (i2 * A.n + j2) 0
      have hlt : i2 * A.n + j2 < A.data.length := by rw [hA]; exact flat_lt hi2 hj2
      rw [List.getD_eq_getElem _ 0 (by rwa [List.length_set]),
          List.getD_eq_getElem _ 0 hlt]
      exact List.getElem_set_ne (fun h => hne (flat_inj hj hj2 h.symm)) _
  · intro h
    unfold idxSet
    by_cases hi : i < A.m
    · have hj : ¬ j < A.n := fun hj => h ⟨hi, hj⟩
      rw [if_pos ⟨Nat.cast_nonneg i, Nat.cast_lt.mpr hi⟩,
          if_neg (by rintro ⟨-, hj2⟩; exact hj (Nat.cast_lt.mp hj2))]
    · rw [if_neg (by rintro ⟨-, hi2⟩; exact hi (Nat.cast_lt.mp hi2))]
  · intro hi
    unfold rowSetThrows
    simp [Nat.cast_lt.mpr hi]

/-- Closed witness for `index_access_spec` at a concrete 2x2 matrix. -/
theorem index_access_spec_witness :
    idxGet (RawMatrix.mk 2 2 [1, 2, 3, 4]) 1 0 =
      some ((RawMatrix.mk 2 2 [1, 2, 3, 4]).entry 1 0) ∧
    idxSet (RawMatrix.mk 2 2 [1, 2, 3, 4]) 5 0 9 = none ∧
    rowSetThrows (RawMatrix.mk 2 2 [1, 2, 3, 4]) 1 = true :=
  ⟨(index_access_spec (RawMatrix.mk 2 2 [1, 2, 3, 4]) (by decide) 1 0 9).1
      (by exact ⟨by decide, by decide⟩),
   (index_access_spec (RawMatrix.mk 2 2 [1, 2, 3, 4]) (by decide) 5 0 9).2.2.2.1
      (by rintro ⟨h, -⟩; exact absurd h (by decide)),
   (index_access_spec (RawMatrix.mk 2 2 [1, 2, 3, 4]) (by decide) 1 0 9).2.2.2.2
      (by decide)⟩

/-- Operator tag of a DualNumber node (Dual.js): leaf constructor or one of
the four binary arithmetic operators, each of which installs a backward
closure on the freshly created node. -/
inductive DOp where
  | leaf | add | sub | mul | div
  deriving DecidableEq, Repr

/-- A computation graph of `N` DualNumber nodes, identified by index.  For an
operator node `c`, `pL c` and `pR c` are its two operands (`this` and `dualB`
in Dual.js; the node's `parents` list holds exactly these, lines 39, 58, 77,
96); `real c` is the node's stored forward value (never mutated after
construction). -/
structure BGraph (N : ℕ) where
  op : Fin N → DOp
  real : Fin N → ℚ
  pL : Fin N → Fin N
  pR : Fin N → Fin N

variable {N : ℕ}

/-- The `parents` list of a node: empty for leaves, `[this, dualB]` for
operator nodes. -/
def BGraph.parents (G : BGraph N) (c : Fin N) : List (Fin N) :=
  match G.op c with
  | .leaf => []
  | _ => [G.pL c, G.pR c]

/-- Whether the node carries a `backward` closure (every operator node does;
leaves do not). -/
def BGraph.hasB (G : BGraph N) (c : Fin N) : Bool :=
  match G.op c with
  | .leaf => false
  | _ => true

/-- Run node `c`'s backward closure on the gradient store `g` (Dual.js lines
34-37, 53-56, 72-75, 91-94): two sequential compound assignments into the
parents' `grad` fields, reading the result node's `grad` at invocation time. -/
def BGraph.applyB (G : BGraph N) (c : Fin N) (g : Fin N → ℚ) : Fin N → ℚ :=
  match G.op c with
  | .leaf => g
  | .add =>
      let g1 := Function.update g (G.pL c) (g (G.pL c) + g c)
      Function.update g1 (G.pR c) (g1 (G.pR c) + g1 c)
  | .sub =>
      let g1 := Function.update g (G.pL c) (g (G.pL c) + g c)
      Function.update g1 (G.pR c) (g1 (G.pR c) - g1 c)
  | .mul =>
      let g1 := Function.update g (G.pL c) (g (G.pL c) + G.real (G.pR c) * g c)
      Function.update g1 (G.pR c) (g1 (G.pR c) + G.real (G.pL c) * g1 c)
  | .div =>
      let g1 := Function.update g (G.pL c) (g (G.pL c) + 1 / G.real (G.pR c) * g c)
      Function.update g1 (G.pR c)
        (g1 (G.pR c) + -G.real (G.pL c) / (G.real (G.pR c) * G.real (G.pR c)) * g1 c)

/-- One step-bounded backprop traversal (Dual.js lines 103-119).  The stack's
head is its top (`pop` removes the last pushed element; pushing the parents
in order leaves the right parent on top, so the reversed parents list is
prepended).  Also records, in invocation order, each node whose closure ran
together with that node's `grad` at invocation time.  `none` only on fuel
exhaustion, which `backprop` provably never hits. -/
def bpGo (G : BGraph N) : ℕ → List (Fin N) → Finset (Fin N) → (Fin N → ℚ) →
    List (Fin N × ℚ) → Option ((Fin N → ℚ) × List (Fin N × ℚ))
  | 0, stack, _, g, tr => if stack = [] then some (g, tr) else none
  | _ + 1, [], _, g, tr => some (g, tr)
  | fuel + 1, node :: stack, vis, g, tr =>
      if G.hasB node ∧ node ∉ vis then
        bpGo G fuel ((G.parents node).reverse ++ stack) (insert node vis)
          (G.applyB node g) (tr ++ [(node, g node)])
      else bpGo G fuel stack vis g tr

/-- Sufficient fuel for the traversal to drain its stack. -/
def bpFuel (G : BGraph N) : ℕ :=
  1 + ∑ v : Fin N, (1 + (G.parents v).length)

/-- `backprop()` (Dual.js lines 103-119): seed `this.grad = 1`, then run the
stack traversal from `this`.  `g0` holds the pre-existing contents of the
nodes' `grad` fields (all zeros on a freshly built graph).  Returns the final
gradient store and the invocation trace. -/
def backprop (G : BGraph N) (r : Fin N) (g0 : Fin N → ℚ) :
    (Fin N → ℚ) × List (Fin N × ℚ) :=
  (bpGo G (bpFuel G) [r] ∅ (Function.update g0 r 1) []).getD (g0, [])

/-- Reachability from the backprop root along `parents` edges. -/
inductive Reach (G : BGraph N) (r : Fin N) : Fin N → Prop
  | refl : Reach G r r
  | tail {c p : Fin N} : Reach G r c → p ∈ G.parents c → Reach G r p

/-- Well-formed graph: every arithmetic method returns a freshly created
node, so an operator node's operands have strictly smaller indices (in
particular no node is its own parent, and the graph is acyclic). -/
def BGraph.GWF (G : BGraph N) : Prop :=
  ∀ c, G.op c ≠ .leaf → G.pL c < c ∧ G.pR c < c

/-- The total amount node `c`'s backward closure adds to node `v`'s gradient
when invoked while `c`'s own gradient reads `gc`: the operator's local
partial derivative times `gc`, counted once per occurrence of `v` among
`c`'s parents. -/
def BGraph.delta (G : BGraph N) (c : Fin N) (gc : ℚ) (v : Fin N) : ℚ :=
  match G.op c with
  | .leaf => 0
  | .add => (if G.pL c = v then gc else 0) + (if G.pR c = v then gc else 0)
  | .sub => (if G.pL c = v then gc else 0) + (if G.pR c = v then -gc else 0)
  | .mul => (if G.pL c = v then G.real (G.pR c) * gc else 0) +
      (if G.pR c = v then G.real (G.pL c) * gc else 0)
  | .div => (if G.pL c = v then 1 / G.real (G.pR c) * gc else 0) +
      (if G.pR c = v then
        -G.real (G.pL c) / (G.real (G.pR c) * G.real (G.pR c)) * gc else 0)

lemma update2_apply (g : Fin N → ℚ) (p q v : Fin N) (x y : ℚ) :
    Function.update (Function.update g p (g p + x)) q
      (Function.update g p (g p + x) q + y) v =
    g v + ((if p = v then x else 0) + (if q = v then y else 0)) := by
  by_cases hqv : q = v
  · subst hqv
    rw [Function.update_same, Function.update_apply, if_pos rfl]
    by_cases hpq : p = q
    · subst hpq
      rw [if_pos rfl, if_pos rfl]
      ring
    · rw [if_neg (Ne.symm hpq), if_neg hpq]
      ring
  · rw [Function.update_noteq (fun h => hqv h.symm), if_neg hqv]
    by_cases hpv : p = v
    · subst hpv
      rw [Function.update_same, if_pos rfl]
      ring
    · rw [Function.update_noteq (fun h => hpv h.symm), if_neg hpv]
      ring

lemma applyB_delta (G : BGraph N) (c : Fin N) (g : Fin N → ℚ)
    (hL : G.pL c ≠ c) (v : Fin N) :
    G.applyB c g v = g v + G.delta c (g c) v := by
  have hgc : Function.update g (G.pL c) (g (G.pL c) + G.real (G.pR c) * g c) c = g c :=
    Function.update_noteq (Ne.symm hL) _ _
  cases hop : G.op c
  case leaf => simp [BGraph.applyB, BGraph.delta, hop]
  case add =>
    simp only [BGraph.applyB, BGraph.delta, hop]
    rw [show Function.update g (G.pL c) (g (G.pL c) + g c) c = g c from
      Function.update_noteq (Ne.symm hL) _ _]
    exact update2_apply g (G.pL c) (G.pR c) v (g c) (g c)
  case sub =>
    simp only [BGraph.applyB, BGraph.delta, hop, sub_eq_add_neg]
    rw [show Function.update g (G.pL c) (g (G.pL c) + g c) c = g c from
      Function.update_noteq (Ne.symm hL) _ _]
    exact update2_apply g (G.pL c) (G.pR c) v (g c) (-g c)
  case mul =>
    simp only [BGraph.applyB, BGraph.delta, hop]
    rw [hgc]
    exact update2_apply g (G.pL c) (G.pR c) v (G.real (G.pR c) * g c)
      (G.real (G.pL c) * g c)
  case div =>
    simp only [BGraph.applyB, BGraph.delta, hop]
    rw [show Function.update g (G.pL c) (g (G.pL c) + 1 / G.real (G.pR c) * g c) c = g c from
      Function.update_noteq (Ne.symm hL) _ _]
    exact update2_apply g (G.pL c) (G.pR c) v (1 / G.real (G.pR c) * g c)
      (-G.real (G.pL c) / (G.real (G.pR c) * G.real (G.pR c)) * g c)

lemma hasB_iff (G : BGraph N) (c : Fin N) : G.hasB c = true ↔ G.op c ≠ .leaf := by
  unfold BGraph.hasB
  cases G.op c <;> simp

lemma parents_eq_nil_of_not_hasB (G : BGraph N) (c : Fin N) (h : ¬ G.hasB c) :
    G.parents c = [] := by
  unfold BGraph.parents
  have : G.op c = .leaf := by
    by_contra hop
    exact h ((hasB_iff G c).mpr hop)
  rw [this]

lemma pL_ne_self {G : BGraph N} (hG : G.GWF) {c : Fin N} (h : G.hasB c) : G.pL c ≠ c :=
  Nat.ne_of_lt (hG c ((hasB_iff G c).mp h)).1 ∘ congrArg Fin.val

lemma reach_of_no_parents (G : BGraph N) (s : Fin N) (h : G.parents s = []) :
    ∀ v, Reach G s v → v = s := by
  intro v hv
  induction hv with
  | refl => rfl
  | tail _ hp ih =>
      rw [ih] at hp
      rw [h] at hp
      exact absurd hp (List.not_mem_nil _)

lemma vis_closed (G : BGraph N) (vis : Finset (Fin N))
    (hinv1 : ∀ v ∈ vis, ∀ p ∈ G.parents v, p ∈ vis ∨ ¬ G.hasB p) :
    ∀ s ∈ vis, ∀ v, Reach G s v → v ∈ vis ∨ ¬ G.hasB v := by
  intro s hs v hv
  induction hv with
  | refl => exact Or.inl hs
  | tail _ hp ih =>
      rcases ih with hc | hc
      · exact hinv1 _ hc _ hp
      · rw [parents_eq_nil_of_not_hasB G _ hc] at hp
        exact absurd hp (List.not_mem_nil _)

/-- Potential function bounding the number of remaining traversal steps. -/
def bpPot (G : BGraph N) (stack : List (Fin N)) (vis : Finset (Fin N)) : ℕ :=
  stack.length +
    ∑ v ∈ Finset.univ.filter (fun v => G.hasB v ∧ v ∉ vis), (1 + (G.parents v).length)

lemma filter_insert_erase (G : BGraph N) (vis : Finset (Fin N)) (node : Fin N) :
    Finset.univ.filter (fun v => G.hasB v ∧ v ∉ insert node vis) =
      (Finset.univ.filter (fun v => G.hasB v ∧ v ∉ vis)).erase node := by
  ext v
  simp only [Finset.mem_filter, Finset.mem_erase, Finset.mem_insert, Finset.mem_univ,
    true_and]
  tauto

lemma bpGo_nil (G : BGraph N) (fuel : ℕ) (vis : Finset (Fin N)) (g : Fin N → ℚ)
    (tr : List (Fin N × ℚ)) : bpGo G fuel [] vis g tr = some (g, tr) := by
  cases fuel <;> simp [bpGo]

lemma bpGo_isSome (G : BGraph N) : ∀ (fuel : ℕ) (stack : List (Fin N))
    (vis : Finset (Fin N)) (g : Fin N → ℚ) (tr : List (Fin N × ℚ)),
    bpPot G stack vis ≤ fuel → (bpGo G fuel stack vis g tr).isSome := by
  intro fuel
  induction fuel with
  | zero =>
      intro stack vis g tr h
      cases stack with
      | nil => simp [bpGo]
      | cons node s => simp [bpPot] at h
  | succ fuel ih =>
      intro stack vis g tr h
      cases stack with
      | nil => simp [bpGo]
      | cons node s =>
          simp only [bpGo]
          split
          case isTrue hcond =>
            apply ih
            have hmem : node ∈ Finset.univ.filter (fun v => G.hasB v ∧ v ∉ vis) := by
              simp [Finset.mem_filter, hcond.1, hcond.2]
            have hsum := Finset.sum_erase_add
              (Finset.univ.filter (fun v => G.hasB v ∧ v ∉ vis))
              (fun v => 1 + (G.parents v).length) hmem
            beta_reduce at hsum
            unfold bpPot at h ⊢
            rw [filter_insert_erase]
            simp only [List.length_append, List.length_reverse, List.length_cons] at h ⊢
            omega
          case isFalse hcond =>
            apply ih
            unfold bpPot at h ⊢
            simp only [List.length_cons] at h
            omega

/-- Every non-root trace entry appears strictly after a trace entry of which
it is a parent: a node is pushed onto the traversal stack (and hence its
closure can only run) after the closure of one of its children has run. -/
def OrdProp (G : BGraph N) (r : Fin N) (tr : List (Fin N × ℚ)) : Prop :=
  ∀ (jdx : ℕ) (h : jdx < tr.length), (tr.get ⟨jdx, h⟩).1 = r ∨
    ∃ (idx : ℕ) (h2 : idx < jdx),
      (tr.get ⟨jdx, h⟩).1 ∈ G.parents (tr.get ⟨idx, lt_trans h2 h⟩).1

lemma bpGo_run_nil (G : BGraph N) (vis : Finset (Fin N)) (tr : List (Fin N × ℚ))
    (hvis : vis = (tr.map Prod.fst).toFinset)
    (hinv1 : ∀ v ∈ vis, ∀ p ∈ G.parents v, p ∈ vis ∨ ¬ G.hasB p) :
    ∀ v, G.hasB v → (∃ s, (s ∈ ([] : List (Fin N)) ∨ s ∈ vis) ∧ Reach G s v) →
      v ∈ tr.map Prod.fst := by
  rintro v hv ⟨s, hs | hs, hreachv⟩
  · exact absurd hs (List.not_mem_nil _)
  · rcases vis_closed G vis hinv1 s hs v hreachv with h | h
    · rw [hvis] at h
      simpa using h
    · exact absurd hv h

lemma bpGo_run (G : BGraph N) (hG : G.GWF) (r : Fin N) :
    ∀ (fuel : ℕ) (stack : List (Fin N)) (vis : Finset (Fin N)) (g : Fin N → ℚ)
      (tr : List (Fin N × ℚ)) (gF : Fin N → ℚ) (trF : List (Fin N × ℚ)),
    bpGo G fuel stack vis g tr = some (gF, trF) →
    vis = (tr.map Prod.fst).toFinset →
    (tr.map Prod.fst).Nodup →
    (∀ v ∈ vis, ∀ p ∈ G.parents v, p ∈ vis ∨ p ∈ stack ∨ ¬ G.hasB p) →
    (∀ s ∈ stack, Reach G r s) →
    (∀ t ∈ tr.map Prod.fst, Reach G r t ∧ G.hasB t) →
    (∀ s ∈ stack, s = r ∨ ∃ (idx : ℕ) (h : idx < tr.length),
        s ∈ G.parents (tr.get ⟨idx, h⟩).1) →
    OrdProp G r tr →
    ∃ ext, trF = tr ++ ext ∧
      (∀ v, gF v = g v + (ext.map fun cg => G.delta cg.1 cg.2 v).sum) ∧
      (trF.map Prod.fst).Nodup ∧
      (∀ t ∈ trF.map Prod.fst, Reach G r t ∧ G.hasB t) ∧
      (∀ v, G.hasB v → (∃ s, (s ∈ stack ∨ s ∈ vis) ∧ Reach G s v) →
        v ∈ trF.map Prod.fst) ∧
      OrdProp G r trF := by
  intro fuel
  induction fuel with
  | zero =>
      intro stack vis g tr gF trF hrun hvis hnd hinv1 hreach htr hord hordtr
      cases stack with
      | cons node s => simp [bpGo] at hrun
      | nil =>
          simp only [bpGo, if_pos rfl, Option.some.injEq, Prod.mk.injEq] at hrun
          obtain ⟨rfl, rfl⟩ := hrun
          refine ⟨[], by simp, by simp, hnd, htr, ?_, hordtr⟩
          exact bpGo_run_nil G vis tr hvis (fun w hw p hp => by
            rcases hinv1 w hw p hp with h | h | h
            · exact Or.inl h
            · exact absurd h (List.not_mem_nil _)
            · exact Or.inr h)
  | succ fuel ih =>
      intro stack vis g tr gF trF hrun hvis hnd hinv1 hreach htr hord hordtr
      cases stack with
      | nil =>
          rw [bpGo_nil] at hrun
          obtain ⟨rfl, rfl⟩ := Prod.mk.injEq .. ▸ Option.some.inj hrun
          refine ⟨[], by simp, by simp, hnd, htr, ?_, hordtr⟩
          exact bpGo_run_nil G vis tr hvis (fun w hw p hp => by
            rcases hinv1 w hw p hp with h | h | h
            · exact Or.inl h
            · exact absurd h (List.not_mem_nil _)
            · exact Or.inr h)
      | cons node s =>
          simp only [bpGo] at hrun
          split at hrun
          case isTrue hcond =>
            obtain ⟨hB, hnvis⟩ := hcond
            have hnode_r : Reach G r node := hreach node (List.mem_cons_self _ _)
            have hnotmem : node ∉ tr.map Prod.fst := by
              rw [hvis] at hnvis
              simpa using hnvis
            have hvis' : insert node vis =
                (((tr ++ [(node, g node)]).map Prod.fst)).toFinset := by
              rw [hvis]
              ext x
              simp [List.toFinset_append, or_comm]
            have hnd' : ((tr ++ [(node, g node)]).map Prod.fst).Nodup := by
              simp only [List.map_append, List.map_cons, List.map_nil]
              rw [List.nodup_append]
              exact ⟨hnd, List.nodup_singleton _, by simpa using hnotmem⟩
            have hinv1' : ∀ v ∈ insert node vis, ∀ p ∈ G.parents v,
                p ∈ insert node vis ∨ p ∈ (G.parents node).reverse ++ s ∨ ¬ G.hasB p := by
              intro v hv p hp
              rcases Finset.mem_insert.mp hv with rfl | hv
              · exact Or.inr (Or.inl (List.mem_append_left _ (List.mem_reverse.mpr hp)))
              · rcases hinv1 v hv p hp with h | h | h
                · exact Or.inl (Finset.mem_insert_of_mem h)
                · rcases List.mem_cons.mp h with rfl | h
                  · exact Or.inl (Finset.mem_insert_self _ _)
                  · exact Or.inr (Or.inl (List.mem_append_right _ h))
                · exact Or.inr (Or.inr h)
            have hreach' : ∀ t ∈ (G.parents node).reverse ++ s, Reach G r t := by
              intro t ht
              rcases List.mem_append.mp ht with ht | ht
              · exact Reach.tail hnode_r (List.mem_reverse.mp ht)
              · exact hreach t (List.mem_cons_of_mem _ ht)
            have htr' : ∀ t ∈ (tr ++ [(node, g node)]).map Prod.fst,
                Reach G r t ∧ G.hasB t := by
              intro t ht
              simp only [List.map_append, List.map_cons, List.map_nil,
                List.mem_append] at ht
              rcases ht with ht | ht
              · exact htr t ht
              · obtain rfl : t = node := by simpa using ht
                exact ⟨hnode_r, hB⟩
            have hget_new : ∀ (h : tr.length < (tr ++ [(node, g node)]).length),
                (tr ++ [(node, g node)]).get ⟨tr.length, h⟩ = (node, g node) := by
              intro h
              simp [List.get_eq_getElem]
            have hget_old : ∀ (idx : ℕ) (hlt : idx < tr.length)
                (h : idx < (tr ++ [(node, g node)]).length),
                (tr ++ [(node, g node)]).get ⟨idx, h⟩ = tr.get ⟨idx, hlt⟩ := by
              intro idx hlt h
              simp [List.get_eq_getElem, List.getElem_append_left hlt]
            have hord' : ∀ t ∈ (G.parents node).reverse ++ s, t = r ∨
                ∃ (idx : ℕ) (h : idx < (tr ++ [(node, g node)]).length),
                  t ∈ G.parents ((tr ++ [(node, g node)]).get ⟨idx, h⟩).1 := by
              intro t ht
              rcases List.mem_append.mp ht with ht | ht
              · right
                refine ⟨tr.length, by simp, ?_⟩
                rw [hget_new]
                exact List.mem_reverse.mp ht
              · rcases hord t (List.mem_cons_of_mem _ ht) with h | ⟨idx, hlt, hmem⟩
                · exact Or.inl h
                · right
                  refine ⟨idx, by simp; omega, ?_⟩
                  rw [hget_old idx hlt]
                  exact hmem
            have hordtr' : OrdProp G r (tr ++ [(node, g node)]) := by
              intro jdx hj
              rcases Nat.lt_or_ge jdx tr.length with hlt | hge
              · rw [hget_old jdx hlt]
                rcases hordtr jdx hlt with h | ⟨idx, h2, hmem⟩
                · exact Or.inl h
                · right
                  refine ⟨idx, h2, ?_⟩
                  rw [hget_old idx (lt_trans h2 hlt)]
                  exact hmem
              · have hj2 : jdx = tr.length := by
                  simp only [List.length_append, List.length_cons,
                    List.length_nil] at hj
                  omega
                subst hj2
                rw [hget_new]
                rcases hord node (List.mem_cons_self _ _) with h | ⟨idx, h2, hmem⟩
                · exact Or.inl h
                · right
                  refine ⟨idx, h2, ?_⟩
                  rw [hget_old idx h2]
                  exact hmem
            obtain ⟨ext, hext, hgrad, hnodF, hsound, hcomp, hordF⟩ :=
              ih _ _ _ _ _ _ hrun hvis' hnd' hinv1' hreach' htr' hord' hordtr'
            refine ⟨(node, g node) :: ext, by simpa using hext, ?_, hnodF, hsound,
              ?_, hordF⟩
            · intro v
              rw [hgrad v, applyB_delta G node g (pL_ne_self hG hB) v]
              simp only [List.map_cons, List.sum_cons]
              ring
            · rintro v hv ⟨t, ht, hrv⟩
              apply hcomp v hv
              rcases ht with ht | ht
              · rcases List.mem_cons.mp ht with rfl | ht
                · exact ⟨t, Or.inr (Finset.mem_insert_self _ _), hrv⟩
                · exact ⟨t, Or.inl (List.mem_append_right _ ht), hrv⟩
              · exact ⟨t, Or.inr (Finset.mem_insert_of_mem ht), hrv⟩
          case isFalse hcond =>
            have hin : G.hasB node → node ∈ vis := by
              intro hB
              by_contra hn
              exact hcond ⟨hB, hn⟩
            have hinv1'' : ∀ v ∈ vis, ∀ p ∈ G.parents v,
                p ∈ vis ∨ p ∈ s ∨ ¬ G.hasB p := by
              intro v hv p hp
              rcases hinv1 v hv p hp with h | h | h
              · exact Or.inl h
              · rcases List.mem_cons.mp h with rfl | h
                · by_cases hBn : G.hasB p
                  · exact Or.inl (hin hBn)
                  · exact Or.inr (Or.inr hBn)
                · exact Or.inr (Or.inl h)
              · exact Or.inr (Or.inr h)
            obtain ⟨ext, hext, hgrad, hnodF, hsound, hcomp, hordF⟩ :=
              ih _ _ _ _ _ _ hrun hvis hnd hinv1''
                (fun t ht => hreach t (List.mem_cons_of_mem _ ht)) htr
                (fun t ht => hord t (List.mem_cons_of_mem _ ht)) hordtr
            refine ⟨ext, hext, hgrad, hnodF, hsound, ?_, hordF⟩
            rintro v hv ⟨t, ht, hrv⟩
            apply hcomp v hv
            rcases ht with ht | ht
            · rcases List.mem_cons.mp ht with rfl | ht
              · by_cases hBn : G.hasB t
                · exact ⟨t, Or.inr (hin hBn), hrv⟩
                · have hvt := reach_of_no_parents G t
                    (parents_eq_nil_of_not_hasB G t hBn) v hrv
                  subst hvt
                  exact absurd hv hBn
              · exact ⟨t, Or.inl ht, hrv⟩
            · exact ⟨t, Or.inr ht, hrv⟩

lemma bpGo_trace_extend (G : BGraph N) : ∀ (fuel : ℕ) (stack : List (Fin N))
    (vis : Finset (Fin N)) (g : Fin N → ℚ) (tr : List (Fin N × ℚ)) (gF trF),
    bpGo G fuel stack vis g tr = some (gF, trF) → ∃ ext, trF = tr ++ ext := by
  intro fuel
  induction fuel with
  | zero =>
      intro stack vis g tr gF trF h
      cases stack with
      | nil =>
          simp only [bpGo, if_true] at h
          obtain ⟨-, rfl⟩ := Prod.mk.injEq .. ▸ Option.some.inj h
          exact ⟨[], by simp⟩
      | cons a s => simp [bpGo] at h
  | succ fuel ih =>
      intro stack vis g tr gF trF h
      cases stack with
      | nil =>
          rw [bpGo_nil] at h
          obtain ⟨rfl, rfl⟩ := Prod.mk.injEq .. ▸ Option.some.inj h
          exact ⟨[], by simp⟩
      | cons node s =>
          simp only [bpGo] at h
          split at h
          · obtain ⟨ext, hext⟩ := ih _ _ _ _ _ _ h
            exact ⟨(node, g node) :: ext, by simpa using hext⟩
          · exact ih _ _ _ _ _ _ h

/-- C3: `backprop()` first sets the root's grad to 1 (the root's closure, if
it exists, is invoked first and observes gradient 1; a root without a closure
triggers no invocation at all), invokes the backward closure of every node
reachable from the root that has one exactly once, invokes no closure of an
unreachable node, and pushes a node's parents only after its own closure has
run (every non-root invocation is strictly preceded by the invocation of a
node it is a parent of). -/
theorem backprop_traversal_spec (G : BGraph N) (hG : G.GWF) (r : Fin N)
    (g0 : Fin N → ℚ) :
    (G.hasB r → ∃ rest, (backprop G r g0).2 = (r, 1) :: rest) ∧
    (¬ G.hasB r → (backprop G r g0).2 = []) ∧
    (∀ v, Reach G r v → G.hasB v →
      ((backprop G r g0).2.map Prod.fst).count v = 1) ∧
    (∀ v, ¬ (Reach G r v ∧ G.hasB v) →
      ((backprop G r g0).2.map Prod.fst).count v = 0) ∧
    OrdProp G r (backprop G r g0).2 := by
  set g1 : Fin N → ℚ := Function.update g0 r 1 with hg1
  have hpot : bpPot G [r] ∅ ≤ bpFuel G := by
    unfold bpPot bpFuel
    simp only [List.length_cons, List.length_nil]
    have hle : ∑ v ∈ Finset.univ.filter (fun v => G.hasB v ∧ v ∉ (∅ : Finset (Fin N))),
        (1 + (G.parents v).length) ≤ ∑ v : Fin N, (1 + (G.parents v).length) :=
      Finset.sum_le_sum_of_subset (Finset.filter_subset _ _)
    omega
  obtain ⟨res, hres⟩ := Option.isSome_iff_exists.mp
    (bpGo_isSome G (bpFuel G) [r] ∅ g1 [] hpot)
  obtain ⟨gF, trF⟩ := res
  have hbp : backprop G r g0 = (gF, trF) := by
    unfold backprop
    rw [← hg1, hres]
    rfl
  obtain ⟨ext, hext, hgrad, hnod, hsound, hcomp, hordF⟩ :=
    bpGo_run G hG r (bpFuel G) [r] ∅ g1 [] gF trF hres (by simp) (by simp)
      (by simp)
      (by
        intro s hs
        rcases List.mem_cons.mp hs with rfl | hs
        · exact Reach.refl
        · exact absurd hs (List.not_mem_nil _))
      (by simp)
      (by
        intro s hs
        rcases List.mem_cons.mp hs with rfl | hs
        · exact Or.inl rfl
        · exact absurd hs (List.not_mem_nil _))
      (by intro jdx h; simp at h)
  rw [hbp]
  have hfuel : bpFuel G = (∑ v : Fin N, (1 + (G.parents v).length)) + 1 := by
    unfold bpFuel
    omega
  refine ⟨?_, ?_, ?_, ?_, hordF⟩
  · intro hB
    have hstep : bpGo G (bpFuel G) [r] ∅ g1 [] =
        bpGo G (∑ v : Fin N, (1 + (G.parents v).length))
          ((G.parents r).reverse ++ []) (insert r ∅) (G.applyB r g1) [(r, 1)] := by
      rw [hfuel]
      simp only [bpGo]
      rw [if_pos ⟨hB, Finset.not_mem_empty r⟩]
      have hgr : g1 r = 1 := Function.update_same r 1 g0
      rw [List.nil_append, hgr]
    obtain ⟨ext2, hext2⟩ := bpGo_trace_extend G _ _ _ _ _ _ _ (hstep ▸ hres)
    exact ⟨ext2, by simpa using hext2⟩
  · intro hB
    have hstep : bpGo G (bpFuel G) [r] ∅ g1 [] = some (g1, []) := by
      rw [hfuel]
      simp only [bpGo]
      rw [if_neg (fun hc => hB hc.1), bpGo_nil]
    rw [hstep] at hres
    obtain ⟨-, rfl⟩ := Prod.mk.injEq .. ▸ Option.some.inj hres
    rfl
  · intro v hv hB
    exact List.count_eq_one_of_mem hnod
      (hcomp v hB ⟨r, Or.inl (List.mem_cons_self _ _), hv⟩)
  · intro v hv
    refine List.count_eq_zero.mpr (fun hmem => hv ?_)
    have := hsound v hmem
    exact ⟨this.1, this.2⟩

/-- The concrete graph of spec scenario 4: `x.real = 3`, `y.real = 4`,
node 2 is `p = x.mul(y)`, node 3 is `z = p.add(x)`. -/
def scenario4 : BGraph 4 where
  op := fun i => if i = 2 then .mul else if i = 3 then .add else .leaf
  real := fun i => if i = 0 then 3 else if i = 1 then 4 else if i = 2 then 12 else 15
  pL := fun i => if i = 2 then 0 else if i = 3 then 2 else 0
  pR := fun i => if i = 2 then 1 else if i = 3 then 0 else 0

/-- C5: building `z = x.mul(y).add(x)` with `x.real = 3`, `y.real = 4` and
calling `z.backprop()` on fresh gradients yields `x.grad = 5` (the mul
backward contributes `y.real = 4` and the add backward contributes 1 to the
shared node `x`) and `y.grad = 3` (`= x.real`). -/
theorem scenario4_backprop :
    (backprop scenario4 3 (fun _ => 0)).1 0 = 5 ∧
    (backprop scenario4 3 (fun _ => 0)).1 1 = 3 ∧
    scenario4.real 3 = 15 := by
  refine ⟨?_, ?_, ?_⟩ <;> with_unfolding_all rfl

/-- Closed witness for `backprop_traversal_spec` on the scenario-4 graph:
the mul node (node 2) is reachable from the root and its closure runs exactly
once; the leaf `y` (node 1) has no closure and is never invoked. -/
theorem backprop_traversal_spec_witness :
    (((backprop scenario4 3 (fun _ => 0)).2.map Prod.fst).count 2 = 1) ∧
    (((backprop scenario4 3 (fun _ => 0)).2.map Prod.fst).count 1 = 0) :=
  ⟨(backprop_traversal_spec scenario4 (by unfold BGraph.GWF; decide) 3 (fun _ => 0)).2.2.1 2
      (Reach.tail Reach.refl (by decide)) (by decide),
   (backprop_traversal_spec scenario4 (by unfold BGraph.GWF; decide) 3 (fun _ => 0)).2.2.2.1 1
      (fun h => by exact absurd h.2 (by decide))⟩

lemma sum_map_filter_of_zero (tr : List (Fin N × ℚ)) (f : Fin N × ℚ → ℚ)
    (P : Fin N × ℚ → Bool) (h : ∀ cg ∈ tr, P cg = false → f cg = 0) :
    (tr.map f).sum = ((tr.filter P).map f).sum := by
  induction tr with
  | nil => rfl
  | cons a t ih =>
      have ht := ih (fun cg hcg => h cg (List.mem_cons_of_mem _ hcg))
      cases hPa : P a with
      | true => simp [List.filter_cons, hPa, ht]
      | false => simp [List.filter_cons, hPa, h a (List.mem_cons_self _ _) hPa, ht]

/-- C4: a backward closure only adds into its parents' gradients: the update
is an additive delta that vanishes at every non-parent and at the node
itself (never an assignment or overwrite).  Consequently, after `backprop()`
every node's gradient equals its seeded initial value plus the sum of the
contributions of the consumers whose closures ran; a node feeding exactly two
invoked downstream consumers accumulates exactly the sum of the two paths'
contributions. -/
theorem backprop_grad_accumulation (G : BGraph N) (hG : G.GWF) (r : Fin N)
    (g0 : Fin N → ℚ) :
    (∀ c g v, G.applyB c g v = g v + G.delta c (g c) v) ∧
    (∀ c gc, G.delta c gc c = 0) ∧
    (∀ c gc v, v ∉ G.parents c → G.delta c gc v = 0) ∧
    (∀ v, (backprop G r g0).1 v = Function.update g0 r 1 v +
      (((backprop G r g0).2).map fun cg => G.delta cg.1 cg.2 v).sum) ∧
    (∀ v c1 gc1 c2 gc2,
      ((backprop G r g0).2).filter (fun cg => decide (v ∈ G.parents cg.1)) =
        [(c1, gc1), (c2, gc2)] →
      (backprop G r g0).1 v = Function.update g0 r 1 v +
        (G.delta c1 gc1 v + G.delta c2 gc2 v)) := by
  have hopleaf : ∀ c, ¬ G.hasB c → G.op c = .leaf := fun c h => by
    by_contra hop
    exact h ((hasB_iff G c).mpr hop)
  have hpR : ∀ c, G.hasB c → G.pR c ≠ c := fun c h =>
    Nat.ne_of_lt (hG c ((hasB_iff G c).mp h)).2 ∘ congrArg Fin.val
  have hd1 : ∀ c g v, G.applyB c g v = g v + G.delta c (g c) v := by
    intro c g v
    by_cases hB : G.hasB c
    · exact applyB_delta G c g (pL_ne_self hG hB) v
    · simp [BGraph.applyB, BGraph.delta, hopleaf c hB]
  have hd2 : ∀ c gc, G.delta c gc c = 0 := by
    intro c gc
    by_cases hB : G.hasB c
    · have h1 := pL_ne_self hG hB
      have h2 := hpR c hB
      cases hop : G.op c <;> simp [BGraph.delta, hop, h1, h2]
    · simp [BGraph.delta, hopleaf c hB]
  have hd3 : ∀ c gc v, v ∉ G.parents c → G.delta c gc v = 0 := by
    intro c gc v hv
    cases hop : G.op c
    case leaf => simp [BGraph.delta, hop]
    all_goals {
      simp only [BGraph.parents, hop, List.mem_cons, List.not_mem_nil, or_false] at hv
      push_neg at hv
      have h1 : ¬ G.pL c = v := fun h => hv.1 h.symm
      have h2 : ¬ G.pR c = v := fun h => hv.2 h.symm
      simp [BGraph.delta, hop, h1, h2] }
  set g1 : Fin N → ℚ := Function.update g0 r 1 with hg1
  have hpot : bpPot G [r] ∅ ≤ bpFuel G := by
    unfold bpPot bpFuel
    simp only [List.length_cons, List.length_nil]
    have hle : ∑ v ∈ Finset.univ.filter (fun v => G.hasB v ∧ v ∉ (∅ : Finset (Fin N))),
        (1 + (G.parents v).length) ≤ ∑ v : Fin N, (1 + (G.parents v).length) :=
      Finset.sum_le_sum_of_subset (Finset.filter_subset _ _)
    omega
  obtain ⟨res, hres⟩ := Option.isSome_iff_exists.mp
    (bpGo_isSome G (bpFuel G) [r] ∅ g1 [] hpot)
  obtain ⟨gF, trF⟩ := res
  have hbp : backprop G r g0 = (gF, trF) := by
    unfold backprop
    rw [← hg1, hres]
    rfl
  obtain ⟨ext, hext, hgrad, -, -, -, -⟩ :=
    bpGo_run G hG r (bpFuel G) [r] ∅ g1 [] gF trF hres (by simp) (by simp)
      (by simp)
      (by
        intro s hs
        rcases List.mem_cons.mp hs with rfl | hs
        · exact Reach.refl
        · exact absurd hs (List.not_mem_nil _))
      (by simp)
      (by
        intro s hs
        rcases List.mem_cons.mp hs with rfl | hs
        · exact Or.inl rfl
        · exact absurd hs (List.not_mem_nil _))
      (by intro jdx h; simp at h)
  rw [hbp]
  dsimp only
  simp only [List.nil_append] at hext
  subst hext
  have hsum : ∀ v, gF v = g1 v + (trF.map fun cg => G.delta cg.1 cg.2 v).sum := hgrad
  refine ⟨hd1, hd2, hd3, hsum, ?_⟩
  intro v c1 gc1 c2 gc2 hfil
  rw [hsum v, sum_map_filter_of_zero trF _ (fun cg => decide (v ∈ G.parents cg.1))
    (fun cg _ hP => hd3 cg.1 cg.2 v (by simpa using hP)), hfil]
  simp

/-- Closed witness for `backprop_grad_accumulation`: in the scenario-4 graph
the shared node `x` (node 0) is a parent of both invoked consumers (the add
root, node 3, and the mul node, node 2) and its final gradient is the sum of
their two contributions. -/
theorem backprop_grad_accumulation_witness :
    (backprop scenario4 3 (fun _ => 0)).1 0 =
      Function.update (fun _ : Fin 4 => (0 : ℚ)) 3 1 0 +
        (scenario4.delta 3 1 0 + scenario4.delta 2 1 0) :=
  (backprop_grad_accumulation scenario4 (by unfold BGraph.GWF; decide) 3
      (fun _ => 0)).2.2.2.2 0 3 1 2 1 (by with_unfolding_all rfl)


/-- The numerical-zero threshold `1e-10` used by `determinant` and
`inverse`. -/
def epsQ : ℚ := 1 / 10 ^ 10

/-- The flat row-major buffer of a square matrix viewed as a function matrix
(`data[i*n + j] = M i j`). -/
def toMat (nn : ℕ) (d : List ℚ) : Matrix (Fin nn) (Fin nn) ℚ :=
  Matrix.of fun i j => d.getD ((i : ℕ) * nn + j) 0

/-- Natural number reduced into `Fin n` (indices produced in range are
unchanged). -/
def finOf (n : ℕ) (h : 0 < n) (a : ℕ) : Fin n := ⟨a % n, Nat.mod_lt _ h⟩

variable {n : ℕ}

/-- Pivot search (det lines 63-72, inverse lines 146-155): the first row at
or below `k` whose column-`k` entry is strictly largest in absolute value,
scanning downward. -/
def pivotSearch (lu : Matrix (Fin n) (Fin n) ℚ) (k : Fin n) : Fin n :=
  ((List.finRange n).filter (fun i => k < i)).foldl
    (fun best i => if |lu i k| > |lu best k| then i else best) k

/-- One outer-loop iteration of LU decomposition with partial pivoting
(det lines 62-97, inverse lines 145-182): pivot search, row swap (recorded
both as a swap count, for the determinant's sign, and in the permutation
array, for the inverse), singularity check of the pivot against the 1e-10
threshold, then elimination below the diagonal with the multiplier stored in
place of the eliminated entry. -/
def luStep (st : Matrix (Fin n) (Fin n) ℚ × ℕ × (Fin n → Fin n)) (k : Fin n) :
    Option (Matrix (Fin n) (Fin n) ℚ × ℕ × (Fin n → Fin n)) :=
  let p := pivotSearch st.1 k
  let lu1 := Matrix.of fun i j => st.1 (Equiv.swap k p i) j
  let swaps1 := if p = k then st.2.1 else st.2.1 + 1
  let perm1 := fun i => st.2.2 (Equiv.swap k p i)
  if |lu1 k k| < epsQ then none
  else
    some (Matrix.of fun i j =>
      if k < i then
        if j = k then lu1 i k / lu1 k k
        else if k < j then lu1 i j - lu1 i k / lu1 k k * lu1 k j
        else lu1 i j
      else lu1 i j, swaps1, perm1)

/-- The `for (k = 0; k < n - 1; k++)` LU loop, `steps` counting the remaining
iterations (`luRun` supplies `n - 1`). -/
def luGo : ℕ → ℕ → (Matrix (Fin n) (Fin n) ℚ × ℕ × (Fin n → Fin n)) →
    Option (Matrix (Fin n) (Fin n) ℚ × ℕ × (Fin n → Fin n))
  | 0, _, st => some st
  | steps + 1, k, st =>
      if h : k < n - 1 then
        match luStep st ⟨k, by omega⟩ with
        | none => none
        | some st2 => luGo steps (k + 1) st2
      else some st

/-- LU decomposition with partial pivoting on a working copy of the data,
starting from swap count 0 and the identity permutation. -/
def luRun (A : Matrix (Fin n) (Fin n) ℚ) :
    Option (Matrix (Fin n) (Fin n) ℚ × ℕ × (Fin n → Fin n)) :=
  luGo (n - 1) 0 (A, 0, id)

/-- `determinant()` (part_001 lines 44-107): `NotSquare` guard, closed forms
for 1x1 and 2x2, otherwise LU with partial pivoting, returning 0 as soon as
a pivot's absolute value drops below 1e-10, else the product of the final
diagonal entries with one sign flip per recorded row swap. -/
def determinant (A : RawMatrix) : Except MErr ℚ :=
  if A.m ≠ A.n then .error .notSquare
  else if A.m = 1 then .ok (A.data.getD 0 0)
  else if A.m = 2 then
    .ok (A.data.getD 0 0 * A.data.getD 3 0 - A.data.getD 1 0 * A.data.getD 2 0)
  else
    match luRun (toMat A.n A.data) with
    | none => .ok 0
    | some (lu, swaps, _) => .ok ((-1 : ℚ) ^ swaps * ∏ i : Fin A.n, lu i i)

/-- Forward substitution solving `L y = b` with unit diagonal (inverse lines
197-205), filling `y` in increasing index order over a zero-initialized
buffer. -/
def fwdSub (lu : Matrix (Fin n) (Fin n) ℚ) (b : Fin n → ℚ) : Fin n → ℚ :=
  (List.finRange n).foldl
    (fun y i => Function.update y i
      (b i - ∑ j ∈ Finset.univ.filter (fun j => j < i), lu i j * y j))
    (fun _ => 0)

/-- Backward substitution solving `U x = y` (inverse lines 208-215), filling
`x` from the last index down over a zero-initialized buffer. -/
def bwdSub (lu : Matrix (Fin n) (Fin n) ℚ) (y : Fin n → ℚ) : Fin n → ℚ :=
  (List.finRange n).reverse.foldl
    (fun x i => Function.update x i
      ((y i - ∑ j ∈ Finset.univ.filter (fun j => i < j), lu i j * x j) / lu i i))
    (fun _ => 0)

/-- `inverse()` (part_001 lines 111-224): `NotSquare` guard; 1x1 and 2x2
closed forms with singularity checks; otherwise LU with partial pivoting and
a permutation record (`SingularMatrix` on any sub-threshold pivot, and on the
final diagonal entry), then for each column a forward/backward substitution
against the permuted unit vector, assembled column-wise into the flat result
buffer (`invData[row*n + col] = x[row]`).  The `A.n = 0` branch is
unreachable: constructed matrices have positive dimensions. -/
def inverse (A : RawMatrix) : Except MErr RawMatrix :=
  if A.m ≠ A.n then .error .notSquare
  else if A.m = 1 then
    if |A.data.getD 0 0| < epsQ then .error .singular
    else .ok ⟨1, 1, [1 / A.data.getD 0 0]⟩
  else if A.m = 2 then
    if |A.data.getD 0 0 * A.data.getD 3 0 - A.data.getD 1 0 * A.data.getD 2 0| < epsQ then
      .error .singular
    else
      .ok ⟨2, 2,
        [A.data.getD 3 0 / (A.data.getD 0 0 * A.data.getD 3 0 - A.data.getD 1 0 * A.data.getD 2 0),
         -A.data.getD 1 0 / (A.data.getD 0 0 * A.data.getD 3 0 - A.data.getD 1 0 * A.data.getD 2 0),
         -A.data.getD 2 0 / (A.data.getD 0 0 * A.data.getD 3 0 - A.data.getD 1 0 * A.data.getD 2 0),
         A.data.getD 0 0 / (A.data.getD 0 0 * A.data.getD 3 0 - A.data.getD 1 0 * A.data.getD 2 0)]⟩
  else
    match luRun (toMat A.n A.data) with
    | none => .error .singular
    | some (lu, _, perm) =>
        if h : 0 < A.n then
          if |lu (finOf A.n h (A.n - 1)) (finOf A.n h (A.n - 1))| < epsQ then .error .singular
          else
            .ok ⟨A.n, A.n, (List.range (A.n * A.n)).map fun idx =>
              bwdSub lu
                (fwdSub lu (fun i => if i = perm (finOf A.n h (idx % A.n)) then 1 else 0))
                (finOf A.n h (idx / A.n))⟩
        else .error .singular

/-- The flat minor built by part_000's Laplace expansion (lines 61-69): rows
1 and below, columns other than `col`, in row-major order. -/
def minorData (nn : ℕ) (d : List ℚ) (col : ℕ) : List ℚ :=
  (List.range (nn - 1)).flatMap fun i =>
    ((List.range nn).filter (fun j => j ≠ col)).map fun j => d.getD ((i + 1) * nn + j) 0

/-- Laplace-expansion determinant (part_000 lines 48-74) on a flat `nn x nn`
buffer: base cases at 1 and 2, else signed cofactor expansion along row 0.
(`nn = 0` falls through the JS loop and yields 0; it is unreachable from
constructed matrices and from the recursion, whose base cases are 1 and 2.) -/
def lapDetData : ℕ → List ℚ → ℚ
  | 0, _ => 0
  | 1, d => d.getD 0 0
  | 2, d => d.getD 0 0 * d.getD 3 0 - d.getD 1 0 * d.getD 2 0
  | nn + 3, d =>
      ((List.range (nn + 3)).map fun col =>
        (if col % 2 = 0 then (1 : ℚ) else -1) * d.getD col 0 *
          lapDetData (nn + 2) (minorData (nn + 3) d col)).sum

/-- part_000's `determinant()`: `NotSquare` guard, then Laplace expansion. -/
def lapDeterminant (A : RawMatrix) : Except MErr ℚ :=
  if A.m ≠ A.n then .error .notSquare else .ok (lapDetData A.n A.data)

/-- C2: on a square matrix of size at least 3 whose LU decomposition hits a
pivot below the 1e-10 threshold, `determinant()` returns 0 without error
while `inverse()` fails with `SingularMatrix`; and either operation fails
with `NotSquare` exactly when rows differ from cols. -/
theorem singular_behavior_spec (A : RawMatrix) :
    (A.m = A.n → 3 ≤ A.n → luRun (toMat A.n A.data) = none →
      determinant A = .ok 0 ∧ inverse A = .error .singular) ∧
    (determinant A = .error .notSquare ↔ A.m ≠ A.n) ∧
    (inverse A = .error .notSquare ↔ A.m ≠ A.n) := by
  refine ⟨?_, ?_, ?_⟩
  · intro hsq h3 hfail
    constructor
    · unfold determinant
      rw [if_neg (by simp [hsq]), if_neg (by omega), if_neg (by omega), hfail]
    · unfold inverse
      rw [if_neg (by simp [hsq]), if_neg (by omega), if_neg (by omega), hfail]
  · constructor
    · intro hdet
      by_cases hsq : A.m = A.n
      swap
      · exact hsq
      exfalso
      unfold determinant at hdet
      rw [if_neg (by simp [hsq])] at hdet
      split at hdet
      · exact absurd hdet (by simp)
      · split at hdet
        · exact absurd hdet (by simp)
        · split at hdet <;> exact absurd hdet (by simp)
    · intro h
      unfold determinant
      rw [if_pos h]
  · constructor
    · intro hinv
      by_cases hsq : A.m = A.n
      swap
      · exact hsq
      exfalso
      unfold inverse at hinv
      rw [if_neg (by simp [hsq])] at hinv
      split at hinv
      · split at hinv <;> simp at hinv
      · split at hinv
        · split at hinv <;> simp at hinv
        · split at hinv
          · simp at hinv
          · split at hinv
            · split at hinv <;> simp at hinv
            · simp at hinv
    · intro h
      unfold inverse
      rw [if_pos h]

/-- Closed witness for `singular_behavior_spec` at the 3x3 singular matrix
whose second row is twice its first (the spec's example shape): the LU loop
hits a zero pivot in column 1, `determinant` returns 0 and `inverse` raises
`SingularMatrix`; a 2x3 matrix raises `NotSquare`. -/
theorem singular_behavior_spec_witness :
    determinant (RawMatrix.mk 3 3 [1, 2, 3, 2, 4, 6, 0, 0, 1]) = .ok 0 ∧
    inverse (RawMatrix.mk 3 3 [1, 2, 3, 2, 4, 6, 0, 0, 1]) = .error .singular ∧
    determinant (RawMatrix.mk 2 3 [1, 2, 3, 4, 5, 6]) = .error .notSquare :=
  ⟨((singular_behavior_spec (RawMatrix.mk 3 3 [1, 2, 3, 2, 4, 6, 0, 0, 1])).1
      rfl (by decide) (by with_unfolding_all rfl)).1,
   ((singular_behavior_spec (RawMatrix.mk 3 3 [1, 2, 3, 2, 4, 6, 0, 0, 1])).1
      rfl (by decide) (by with_unfolding_all rfl)).2,
   (singular_behavior_spec (RawMatrix.mk 2 3 [1, 2, 3, 4, 5, 6])).2.1.mpr (by decide)⟩

/-- C10 counterexample: on the 3x3 matrix `diag(1e-12, 1, 1)` the Laplace
determinant of part_000 returns the exact value `1e-12` while the LU
determinant of part_001 hits the 1e-10 pivot threshold and returns 0, so the
two implementations do not agree on every square matrix. -/
theorem det_variants_counterexample :
    lapDeterminant (RawMatrix.mk 3 3 [mkRat 1 (10 ^ 12), 0, 0, 0, 1, 0, 0, 0, 1]) ≠
      determinant (RawMatrix.mk 3 3 [mkRat 1 (10 ^ 12), 0, 0, 0, 1, 0, 0, 0, 1]) ∧
    lapDeterminant (RawMatrix.mk 3 3 [mkRat 1 (10 ^ 12), 0, 0, 0, 1, 0, 0, 0, 1]) =
      .ok (mkRat 1 (10 ^ 12)) ∧
    determinant (RawMatrix.mk 3 3 [mkRat 1 (10 ^ 12), 0, 0, 0, 1, 0, 0, 0, 1]) = .ok 0 := by
  have h1 : lapDeterminant (RawMatrix.mk 3 3 [mkRat 1 (10 ^ 12), 0, 0, 0, 1, 0, 0, 0, 1]) =
      .ok (mkRat 1 (10 ^ 12)) := by with_unfolding_all rfl
  have h2 : determinant (RawMatrix.mk 3 3 [mkRat 1 (10 ^ 12), 0, 0, 0, 1, 0, 0, 0, 1]) =
      .ok 0 := by with_unfolding_all rfl
  refine ⟨?_, h1, h2⟩
  rw [h1, h2]
  intro h
  exact absurd (Except.ok.inj h) (by decide)

lemma list_sum_range (Nn : ℕ) (g : ℕ → ℚ) :
    ((List.range Nn).map g).sum = ∑ i ∈ Finset.range Nn, g i := by
  induction Nn with
  | zero => simp
  | succ k ih =>
      rw [List.range_succ]
      simp [ih, Finset.sum_range_succ]

lemma sign_pow (col : ℕ) : (if col % 2 = 0 then (1 : ℚ) else -1) = (-1) ^ col := by
  rcases Nat.even_or_odd col with h | h
  · rw [if_pos (Nat.even_iff.mp h), h.neg_one_pow]
  · rw [if_neg (by rw [Nat.odd_iff.mp h]; omega), h.neg_one_pow]

lemma filter_ne_eq_skip (nn col : ℕ) (hcol : col < nn) :
    (List.range nn).filter (fun j => decide (j ≠ col)) =
      (List.range (nn - 1)).map (fun j => if j < col then j else j + 1) := by
  obtain ⟨rest, rfl⟩ : ∃ rest, nn = col + (1 + rest) := ⟨nn - col - 1, by omega⟩
  have hL : (List.range (col + (1 + rest))).filter (fun j => decide (j ≠ col)) =
      List.range col ++ (List.range rest).map (fun i => col + 1 + i) := by
    rw [List.range_add, List.filter_append]
    congr 1
    · rw [List.filter_eq_self]
      intro a ha
      rw [List.mem_range] at ha
      exact decide_eq_true (Nat.ne_of_lt ha)
    · rw [List.range_add, List.map_append, List.filter_append]
      have h1 : (List.range 1).map (col + ·) = [col] := by simp [List.range_succ]
      have h2 : List.filter (fun j => decide (j ≠ col)) [col] = [] := by simp [List.filter_cons]
      rw [h1, h2, List.nil_append, List.map_map,
        List.filter_eq_self.mpr ?_]
      · apply List.map_congr_left
        intro a _
        simp only [Function.comp_apply]
        omega
      · intro a ha
        simp only [List.mem_map, List.mem_range, Function.comp_apply] at ha
        obtain ⟨i, -, rfl⟩ := ha
        simp only [decide_eq_true_eq]
        omega
  have hR : (List.range (col + (1 + rest) - 1)).map (fun j => if j < col then j else j + 1) =
      List.range col ++ (List.range rest).map (fun i => col + 1 + i) := by
    have he : col + (1 + rest) - 1 = col + rest := by omega
    rw [he, List.range_add, List.map_append]
    congr 1
    · have : ∀ a ∈ List.range col, (if a < col then a else a + 1) = a := by
        intro a ha
        rw [List.mem_range] at ha
        simp [ha]
      rw [List.map_congr_left this]
      exact List.map_id _
    · rw [List.map_map]
      apply List.map_congr_left
      intro a _
      simp only [Function.comp_apply]
      rw [if_neg (by omega)]
      omega
  rw [hL, hR]

lemma flatMap_blocks (rows L : ℕ) (f : ℕ → ℕ → ℚ) :
    ((List.range rows).flatMap fun r => (List.range L).map (f r)) =
      (List.range (rows * L)).map (fun idx => f (idx / L) (idx % L)) := by
  induction rows with
  | zero => simp
  | succ rows ih =>
      rw [List.range_succ, List.flatMap_append, ih, Nat.succ_mul, List.range_add,
        List.map_append]
      congr 1
      simp only [List.flatMap_cons, List.flatMap_nil, List.append_nil, List.map_map]
      apply List.map_congr_left
      intro t ht
      rw [List.mem_range] at ht
      simp only [Function.comp_apply]
      rw [flat_div ht, flat_mod ht]

lemma minorData_getD (nn col : ℕ) (hcol : col < nn) (d : List ℚ) (i j : ℕ)
    (hi : i < nn - 1) (hj : j < nn - 1) :
    (minorData nn d col).getD (i * (nn - 1) + j) 0 =
      d.getD ((i + 1) * nn + (if j < col then j else j + 1)) 0 := by
  unfold minorData
  rw [filter_ne_eq_skip nn col hcol]
  simp only [List.map_map]
  rw [flatMap_blocks, getD_map_range _ _ _ (flat_lt hi hj), flat_div hj, flat_mod hj]
  rfl

lemma succAbove_val {nn : ℕ} (p : Fin (nn + 1)) (i : Fin nn) :
    ((p.succAbove i : Fin (nn + 1)) : ℕ) =
      if (i : ℕ) < (p : ℕ) then (i : ℕ) else (i : ℕ) + 1 := by
  unfold Fin.succAbove
  by_cases h : Fin.castSucc i < p
  · rw [if_pos h, if_pos (by simpa [Fin.lt_def] using h)]
    rfl
  · rw [if_neg h, if_neg (by simpa [Fin.lt_def] using h)]
    rfl

lemma toMat_minor (k : ℕ) (d : List ℚ) (col : Fin (k + 3)) :
    toMat (k + 2) (minorData (k + 3) d (col : ℕ)) =
      (toMat (k + 3) d).submatrix Fin.succ col.succAbove := by
  ext i j
  show (minorData (k + 3) d (col : ℕ)).getD ((i : ℕ) * ((k + 3) - 1) + (j : ℕ)) 0 = _
  rw [minorData_getD (k + 3) (col : ℕ) col.isLt d i j
    (by have := i.isLt; omega) (by have := j.isLt; omega)]
  show _ = d.getD (((Fin.succ i : Fin (k + 3)) : ℕ) * (k + 3) +
    ((col.succAbove j : Fin (k + 3)) : ℕ)) 0
  rw [succAbove_val, Fin.val_succ]

/-- The Laplace-expansion determinant of part_000 computes the mathematical
determinant of the flat buffer viewed as a matrix, for every positive size. -/
lemma lapDet_eq_det : ∀ (m : ℕ) (d : List ℚ), lapDetData (m + 1) d = (toMat (m + 1) d).det := by
  intro m
  induction m using Nat.strong_induction_on with
  | _ m ih =>
    obtain _ | _ | k := m
    · intro d
      rw [Matrix.det_fin_one]
      show d.getD 0 0 = (toMat 1 d) 0 0
      simp [toMat]
    · intro d
      rw [Matrix.det_fin_two]
      show d.getD 0 0 * d.getD 3 0 - d.getD 1 0 * d.getD 2 0 = _
      simp [toMat]
    · intro d
      rw [Matrix.det_succ_row_zero]
      show lapDetData (k + 3) d = _
      simp only [lapDetData]
      rw [list_sum_range, ← Fin.sum_univ_eq_sum_range]
      apply Finset.sum_congr rfl
      intro col _
      rw [sign_pow, ih (k + 1) (by omega) (minorData (k + 3) d (col : ℕ))]
      show (-1 : ℚ) ^ (col : ℕ) * d.getD (col : ℕ) 0 *
          (toMat (k + 2) (minorData (k + 3) d (col : ℕ))).det = _
      rw [toMat_minor]
      congr 2
      show d.getD (col : ℕ) 0 = d.getD (((0 : Fin (k + 3)) : ℕ) * (k + 3) + (col : ℕ)) 0
      norm_num

/-- Outside the already-eliminated region (columns before `k`, strictly below
the diagonal) the working LU buffer, which stores multipliers there, agrees
with the ghost matrix `C`, which keeps the mathematical zeros. -/
def Agr (k : ℕ) (lu C : Matrix (Fin n) (Fin n) ℚ) : Prop :=
  ∀ i j : Fin n, ¬((j : ℕ) < k ∧ j < i) → lu i j = C i j

/-- The ghost matrix has zeros below the diagonal in every processed column. -/
def Zer (k : ℕ) (C : Matrix (Fin n) (Fin n) ℚ) : Prop :=
  ∀ i j : Fin n, (j : ℕ) < k → j < i → C i j = 0

lemma pivotSearch_ge (lu : Matrix (Fin n) (Fin n) ℚ) (k : Fin n) :
    k ≤ pivotSearch lu k := by
  unfold pivotSearch
  have aux : ∀ (l : List (Fin n)) (best : Fin n), k ≤ best → (∀ i ∈ l, k ≤ i) →
      k ≤ l.foldl (fun best i => if |lu i k| > |lu best k| then i else best) best := by
    intro l
    induction l with
    | nil =>
        intro best h _
        exact h
    | cons a rest ih =>
        intro best h hall
        rw [List.foldl_cons]
        apply ih
        · dsimp only
          split
          · exact hall a (List.mem_cons_self _ _)
          · exact h
        · exact fun i hi => hall i (List.mem_cons_of_mem _ hi)
  refine aux _ k (le_refl k) (fun i hi => ?_)
  rw [List.mem_filter] at hi
  exact le_of_lt (by simpa using hi.2)

/-- Elimination on the ghost matrix: subtract `f i` times row `k` from every
row `i` below row `k` (producing true zeros in column `k`). -/
def elimC (C : Matrix (Fin n) (Fin n) ℚ) (k : Fin n) (f : Fin n → ℚ) :
    Matrix (Fin n) (Fin n) ℚ :=
  Matrix.of fun i j => if k < i then C i j - f i * C k j else C i j

/-- The same elimination performed one row update at a time. -/
def elimRows (C : Matrix (Fin n) (Fin n) ℚ) (k : Fin n) (f : Fin n → ℚ) :
    List (Fin n) → Matrix (Fin n) (Fin n) ℚ
  | [] => C
  | i :: rest =>
      (elimRows C k f rest).updateRow i
        (elimRows C k f rest i - f i • elimRows C k f rest k)

lemma elimRows_apply (C : Matrix (Fin n) (Fin n) ℚ) (k : Fin n) (f : Fin n → ℚ) :
    ∀ (l : List (Fin n)), k ∉ l → l.Nodup → ∀ i j : Fin n,
      elimRows C k f l i j = if i ∈ l then C i j - f i * C k j else C i j := by
  intro l
  induction l with
  | nil =>
      intro _ _ i j
      simp [elimRows]
  | cons a rest ih =>
      intro hk hnd i j
      have hk2 : k ∉ rest := fun h => hk (List.mem_cons_of_mem _ h)
      have hnd2 : rest.Nodup := (List.nodup_cons.mp hnd).2
      have ha : a ∉ rest := (List.nodup_cons.mp hnd).1
      simp only [elimRows]
      rw [Matrix.updateRow_apply]
      by_cases hia : i = a
      · subst hia
        rw [if_pos rfl, if_pos (List.mem_cons_self _ _)]
        simp only [Pi.sub_apply, Pi.smul_apply, smul_eq_mul]
        rw [ih hk2 hnd2 i j, ih hk2 hnd2 k j, if_neg ha,
          if_neg (fun h => hk (List.mem_cons_of_mem _ h))]
      · rw [if_neg hia, ih hk2 hnd2 i j]
        by_cases hm : i ∈ rest
        · rw [if_pos hm, if_pos (List.mem_cons_of_mem _ hm)]
        · rw [if_neg hm, if_neg (by simp [List.mem_cons, hia, hm])]

lemma elimRows_det (C : Matrix (Fin n) (Fin n) ℚ) (k : Fin n) (f : Fin n → ℚ) :
    ∀ (l : List (Fin n)), k ∉ l → (elimRows C k f l).det = C.det := by
  intro l
  induction l with
  | nil =>
      intro _
      rfl
  | cons a rest ih =>
      intro hk
      have hk2 : k ∉ rest := fun h => hk (List.mem_cons_of_mem _ h)
      have hak : a ≠ k := fun h => hk (h ▸ List.mem_cons_self _ _)
      simp only [elimRows]
      have hrow : elimRows C k f rest a - f a • elimRows C k f rest k =
          elimRows C k f rest a + (-(f a)) • elimRows C k f rest k := by
        rw [neg_smul, sub_eq_add_neg]
      rw [hrow, Matrix.det_updateRow_add_smul_self _ hak, ih hk2]

lemma det_elimC (C : Matrix (Fin n) (Fin n) ℚ) (k : Fin n) (f : Fin n → ℚ) :
    (elimC C k f).det = C.det := by
  have hk : k ∉ (List.finRange n).filter (fun i => decide (k < i)) := by simp
  have hnd : ((List.finRange n).filter (fun i => decide (k < i))).Nodup :=
    (List.nodup_finRange n).filter _
  have heq : elimC C k f =
      elimRows C k f ((List.finRange n).filter (fun i => decide (k < i))) := by
    ext i j
    rw [elimRows_apply C k f _ hk hnd i j]
    by_cases h : k < i <;> simp [elimC, h, List.mem_filter, List.mem_finRange]
  rw [heq, elimRows_det C k f _ hk]

lemma luStep_spec (lu C : Matrix (Fin n) (Fin n) ℚ) (swaps : ℕ)
    (perm : Fin n → Fin n) (k : Fin n) (D : ℚ)
    (hAgr : Agr (k : ℕ) lu C) (hZer : Zer (k : ℕ) C)
    (hdet : C.det = (-1) ^ swaps * D)
    (lu2 : Matrix (Fin n) (Fin n) ℚ) (swaps2 : ℕ) (perm2 : Fin n → Fin n)
    (hstep : luStep (lu, swaps, perm) k = some (lu2, swaps2, perm2)) :
    ∃ C2, Agr ((k : ℕ) + 1) lu2 C2 ∧ Zer ((k : ℕ) + 1) C2 ∧
      C2.det = (-1) ^ swaps2 * D := by
  unfold luStep at hstep
  dsimp only at hstep
  set p := pivotSearch lu k with hp
  have hkp : k ≤ p := pivotSearch_ge lu k
  set σ := Equiv.swap k p with hσ
  set lu1 : Matrix (Fin n) (Fin n) ℚ := Matrix.of fun i j => lu (σ i) j with hlu1
  set C1 : Matrix (Fin n) (Fin n) ℚ := Matrix.of fun i j => C (σ i) j with hC1
  have hσk : σ k = p := Equiv.swap_apply_left k p
  have hσp : σ p = k := Equiv.swap_apply_right k p
  have hσo : ∀ i : Fin n, i ≠ k → i ≠ p → σ i = i :=
    fun i h1 h2 => Equiv.swap_apply_of_ne_of_ne h1 h2
  have hAgr1 : Agr (k : ℕ) lu1 C1 := by
    intro i j hcond
    show lu (σ i) j = C (σ i) j
    apply hAgr
    rintro ⟨hj1, hj2⟩
    apply hcond
    refine ⟨hj1, ?_⟩
    rw [Fin.lt_def] at hj2 ⊢
    by_cases h1 : i = k
    · subst h1
      omega
    · by_cases h2 : i = p
      · subst h2
        have := Fin.le_def.mp hkp
        omega
      · rw [hσo i h1 h2] at hj2
        exact hj2
  have hZer1 : Zer (k : ℕ) C1 := by
    intro i j hj hji
    show C (σ i) j = 0
    apply hZer _ _ hj
    rw [Fin.lt_def] at hji ⊢
    by_cases h1 : i = k
    · rw [h1, hσk]
      have := Fin.le_def.mp hkp
      omega
    · by_cases h2 : i = p
      · rw [h2, hσp]
        omega
      · rw [hσo i h1 h2]
        exact hji
  by_cases hpiv : |lu1 k k| < epsQ
  · rw [if_pos hpiv] at hstep
    exact absurd hstep (by simp)
  · rw [if_neg hpiv] at hstep
    rw [Option.some.injEq, Prod.mk.injEq, Prod.mk.injEq] at hstep
    obtain ⟨hlu2, hsw2, hpm2⟩ := hstep
    subst hlu2
    subst hsw2
    have hne : lu1 k k ≠ 0 := by
      intro h0
      apply hpiv
      rw [h0, abs_zero]
      norm_num [epsQ]
    have hC1kk : C1 k k = lu1 k k := (hAgr1 k k (by simp)).symm
    refine ⟨elimC C1 k (fun i => lu1 i k / lu1 k k), ?_, ?_, ?_⟩
    · intro i j hcond
      simp only [elimC, Matrix.of_apply]
      by_cases hki : k < i
      · have hjk : (k : ℕ) < (j : ℕ) := by
          by_contra hle
          push_neg at hle
          apply hcond
          constructor
          · omega
          · rw [Fin.lt_def]
            have := Fin.lt_def.mp hki
            omega
        have hjne : ¬ j = k := by
          intro h
          rw [h] at hjk
          omega
        rw [if_pos hki, if_pos hki, if_neg hjne, if_pos (Fin.lt_def.mpr hjk)]
        rw [hAgr1 i j (by rintro ⟨h1, -⟩; omega),
          hAgr1 k j (by rintro ⟨h1, -⟩; omega)]
      · rw [if_neg hki, if_neg hki]
        apply hAgr1
        rintro ⟨h1, h2⟩
        exact hcond ⟨by omega, h2⟩
    · intro i j hj hji
      simp only [elimC, Matrix.of_apply]
      by_cases hki : k < i
      · rw [if_pos hki]
        by_cases hjk : (j : ℕ) < (k : ℕ)
        · rw [hZer1 i j hjk hji, hZer1 k j hjk (Fin.lt_def.mpr hjk), mul_zero, sub_zero]
        · have hjeq : j = k := Fin.ext (by omega)
          subst hjeq
          rw [hC1kk, ← hAgr1 i j (by simp)]
          rw [div_mul_cancel₀ _ hne, sub_self]
      · rw [if_neg hki]
        apply hZer1 i j ?_ hji
        have h1 := Fin.lt_def.mp hji
        have h2 := Fin.le_def.mp (Fin.not_lt.mp hki)
        omega
    · rw [det_elimC]
      by_cases hpk : p = k
      · rw [if_pos hpk]
        have hCC : C1 = C := by
          ext i j
          show C (σ i) j = C i j
          rw [hσ, hpk, Equiv.swap_self]
          simp
        rw [hCC, hdet]
      · rw [if_neg hpk]
        have hsub : C1 = C.submatrix σ id := by
          ext i j
          rfl
        have hsgn : Equiv.Perm.sign σ = -1 :=
          Equiv.Perm.sign_swap (fun h => hpk h.symm)
        rw [hsub, Matrix.det_permute, hsgn, hdet]
        push_cast
        ring

lemma luGo_det (D : ℚ) : ∀ (steps k : ℕ), steps = (n - 1) - k →
    ∀ (lu C : Matrix (Fin n) (Fin n) ℚ) (swaps : ℕ) (perm : Fin n → Fin n)
      (lu2 : Matrix (Fin n) (Fin n) ℚ) (swaps2 : ℕ) (perm2 : Fin n → Fin n),
    luGo steps k (lu, swaps, perm) = some (lu2, swaps2, perm2) →
    Agr k lu C → Zer k C → C.det = (-1) ^ swaps * D →
    ∃ C2, Agr (n - 1) lu2 C2 ∧ Zer (n - 1) C2 ∧ C2.det = (-1) ^ swaps2 * D := by
  intro steps
  induction steps with
  | zero =>
      intro k hk lu C swaps perm lu2 swaps2 perm2 hrun hAgr hZer hdet
      simp only [luGo, Option.some.injEq, Prod.mk.injEq] at hrun
      obtain ⟨rfl, rfl, rfl⟩ := hrun
      refine ⟨C, ?_, ?_, hdet⟩
      · intro i j hc
        apply hAgr
        rintro ⟨h1, h2⟩
        apply hc
        have hi := i.isLt
        have hj2 := Fin.lt_def.mp h2
        exact ⟨by omega, h2⟩
      · intro i j h1 h2
        apply hZer i j ?_ h2
        omega
  | succ steps ih =>
      intro k hk lu C swaps perm lu2 swaps2 perm2 hrun hAgr hZer hdet
      simp only [luGo] at hrun
      by_cases hklt : k < n - 1
      · rw [dif_pos hklt] at hrun
        rcases hls : luStep (lu, swaps, perm) ⟨k, by omega⟩ with - | ⟨⟨luM, swapsM, permM⟩⟩
        · rw [hls] at hrun
          exact absurd hrun (by simp)
        · rw [hls] at hrun
          obtain ⟨C2, hA2, hZ2, hd2⟩ :=
            luStep_spec lu C swaps perm ⟨k, by omega⟩ D hAgr hZer hdet luM swapsM permM hls
          exact ih (k + 1) (by omega) luM C2 swapsM permM lu2 swaps2 perm2 hrun hA2 hZ2 hd2
      · omega

lemma luRun_det (A lu2 : Matrix (Fin n) (Fin n) ℚ) (swaps2 : ℕ)
    (perm2 : Fin n → Fin n) (h : luRun A = some (lu2, swaps2, perm2)) :
    (-1 : ℚ) ^ swaps2 * ∏ i : Fin n, lu2 i i = A.det := by
  obtain ⟨C2, hA2, hZ2, hd2⟩ := luGo_det A.det (n - 1) 0 (by omega) A A 0 id
    lu2 swaps2 perm2 h (fun i j hc => rfl) (fun i j h1 h2 => absurd h1 (by omega))
    (by simp)
  have hdiag : ∀ i : Fin n, lu2 i i = C2 i i := fun i => hA2 i i (by simp)
  have htri : C2.BlockTriangular id := by
    intro i j hij
    simp only [id_eq] at hij
    apply hZ2
    · have hi := i.isLt
      have hj := Fin.lt_def.mp hij
      omega
    · exact hij
  have hdetC2 : C2.det = ∏ i, C2 i i := Matrix.det_of_upperTriangular htri
  rw [Finset.prod_congr rfl (fun i _ => hdiag i), ← hdetC2, hd2, ← mul_assoc,
    ← pow_add]
  rw [Even.neg_one_pow ⟨swaps2, by omega⟩, one_mul]

/-- C10 (amended): the Laplace-expansion determinant of part_000 and the
LU-with-partial-pivoting determinant of part_001 agree on every square matrix
of positive size on which the LU path's 1e-10 pivot check does not fire
(which covers all sizes 1 and 2, where both use identical closed forms).  On
a sub-threshold pivot the LU variant returns 0 while the Laplace variant
returns the exact determinant, which is the only divergence (see the
counterexample). -/
theorem det_variants_agree (A : RawMatrix) (hsq : A.m = A.n) (hpos : 0 < A.m)
    (hlu : 3 ≤ A.n → luRun (toMat A.n A.data) ≠ none) :
    lapDeterminant A = determinant A := by
  have key : ∀ (nn : ℕ) (d : List ℚ), 1 ≤ nn → lapDetData nn d = (toMat nn d).det := by
    intro nn d hnn
    obtain ⟨m2, rfl⟩ := Nat.exists_eq_add_of_le hnn
    rw [show 1 + m2 = m2 + 1 from by omega]
    exact lapDet_eq_det m2 d
  unfold lapDeterminant determinant
  rw [if_neg (by simp [hsq]), if_neg (by simp [hsq])]
  by_cases h1 : A.m = 1
  · rw [if_pos h1]
    have hn : A.n = 1 := by omega
    rw [hn]
    rfl
  · rw [if_neg h1]
    by_cases h2 : A.m = 2
    · rw [if_pos h2]
      have hn : A.n = 2 := by omega
      rw [hn]
      rfl
    · rw [if_neg h2]
      have h3 : 3 ≤ A.n := by omega
      rcases hr : luRun (toMat A.n A.data) with - | ⟨⟨lu2, swaps2, perm2⟩⟩
      · exact absurd hr (hlu h3)
      · dsimp only
        congr 1
        rw [key A.n A.data (by omega)]
        exact (luRun_det (toMat A.n A.data) lu2 swaps2 perm2 hr).symm

/-- Closed witness for `det_variants_agree`: on the well-conditioned matrix
`diag(2, 1, 1)` the LU run completes and both determinants give 2. -/
theorem det_variants_agree_witness :
    lapDeterminant (RawMatrix.mk 3 3 [2, 0, 0, 0, 1, 0, 0, 0, 1]) =
      determinant (RawMatrix.mk 3 3 [2, 0, 0, 0, 1, 0, 0, 0, 1]) ∧
    determinant (RawMatrix.mk 3 3 [2, 0, 0, 0, 1, 0, 0, 0, 1]) = .ok 2 :=
  ⟨det_variants_agree (RawMatrix.mk 3 3 [2, 0, 0, 0, 1, 0, 0, 0, 1]) rfl (by decide)
      (fun _ => Option.ne_none_iff_isSome.mpr (by with_unfolding_all rfl)),
   by with_unfolding_all rfl⟩

/-- C1: the spec (and the repository's own test suite) requires
`A.multiply(A.inverse())` to approximate the identity within 1e-10 per
element whenever every LU pivot has magnitude at least 1e-10.  The code
violates this: `inverse()` seeds the substitution vector with
`b[perm[col]] = 1`, applying the recorded row permutation in the wrong
direction, which is correct only when that permutation is an involution.
On the cyclic permutation matrix below every pivot equals 1 and `inverse()`
succeeds, yet it returns the matrix itself instead of its transpose, and
the product differs from the identity by 1 at entry (0,0). -/
theorem inverse_identity_code_bug :
    ∃ B C : RawMatrix,
      inverse (RawMatrix.mk 3 3 [0, 0, 1, 1, 0, 0, 0, 1, 0]) = .ok B ∧
      (RawMatrix.mk 3 3 [0, 0, 1, 1, 0, 0, 0, 1, 0]).multiply B = .ok C ∧
      ¬ |C.entry 0 0 - (RawMatrix.identity 3).entry 0 0| < epsQ := by
  refine ⟨RawMatrix.mk 3 3 [0, 0, 1, 1, 0, 0, 0, 1, 0],
    RawMatrix.mk 3 3 [0, 1, 0, 0, 0, 1, 1, 0, 0],
    by with_unfolding_all rfl, by with_unfolding_all rfl, ?_⟩
  have h1 : (RawMatrix.mk 3 3 [0, 1, 0, 0, 0, 1, 1, 0, 0]).entry 0 0 = 0 := by
    with_unfolding_all rfl
  have h2 : (RawMatrix.identity 3).entry 0 0 = 1 := by
    with_unfolding_all rfl
  rw [h1, h2]
  norm_num [epsQ]

end Perceptron
